import Mathlib

/-
Verification of the halirc core (lib.py) against its design document.

The embedding below translates, state-passing style, the parts of lib.py
that the verified properties are about:

  * the pacing computation `Request.restOfDelay` / `Request.__delaySending`
    (lib.py lines 405-439),
  * the per-device `TaskQueue` (push / run / gotAnswer / failed,
    lib.py lines 493-547),
  * the global action dispatcher kept in class-level state of `Trigger`
    (execute / run / executed / notExecuted / cancelLongRun,
    lib.py lines 218-316) together with the places in `Request.send`
    that also mutate that state (lines 449-462),
  * the event history kept by `Hal.eventReceived` (lines 345-360),
  * `Serializer.ask` / `Serializer._send` / `Serializer.send`
    (lines 650-655 and 692-713).

Wall-clock instants and durations are rationals (seconds); Python
`datetime` subtraction becomes subtraction in ℚ.  Asynchronous callback
chains become explicit events fed to step functions; ghost "history"
fields (clearly marked) record what the callbacks would have observed.
-/

namespace Halirc

/-- Wall-clock instants and durations, in seconds. -/
abbrev Time := ℚ

/-- Embeds `elapsedSince` (lib.py line 41): seconds elapsed since `since`,
evaluated at instant `now`.  (The Python version reads the clock itself;
the embedding passes `now` explicitly.) -/
def elapsedSince (now since : Time) : Time := now - since

/-- The device `Message` contract (spec §4.1, implemented per device):
a command identifier plus an optional value; the question form of a
command carries no value (`ask` strips the value, lib.py line 654). -/
structure Message where
  command : String
  value : Option String
deriving DecidableEq, Repr

/-- A request as seen by the pacing computation: its message and its
`sendTime` (`none` when the request has not been written yet). -/
structure HistRequest where
  msg : Message
  sendTime : Option Time
deriving DecidableEq, Repr

/-- A device `delay(previous, next)` pacing function (lib.py line 600
gives the default 0; devices override it). -/
abbrev DelayFn := Message → Message → Time

/-- Embeds `Request.restOfDelay` (lib.py lines 405-417) for a candidate `old`
that has a recorded send time: the remaining part of
`delay(old, next)` at instant `now`.  `if delay:` is Python
float-truthiness, i.e. `delay ≠ 0`; a non-positive remainder yields 0. -/
def restOfDelay (delayFn : DelayFn) (now : Time) (next : Message)
    (old : Message × Time) : Time :=
  let d := delayFn old.1 next
  if d ≠ 0 then
    let stillWaiting := d - elapsedSince now old.2
    if 0 < stillWaiting then stillWaiting else 0
  else 0

/-- Python's stable ascending `sorted(l, key=key)`. -/
def pySorted (key : α → Time) (l : List α) : List α :=
  List.insertionSort (fun a b => key a ≤ key b) l

/-- Embeds `Request.__delaySending` (lib.py lines 419-439), connected case:
filter `allRequests` down to those with a send time, sort them by
`restOfDelay`, and wait the `restOfDelay` of the last (greatest) one;
with no sent request the send proceeds immediately (wait 0).
(When `protocol.connected` is false the Python code instead re-arms
itself every 0.1 s until connected; the claim only concerns the
connected case, lib.py line 424.) -/
def delaySendingWait (delayFn : DelayFn) (now : Time) (next : Message)
    (allRequests : List HistRequest) : Time :=
  let sent := allRequests.filterMap fun r => r.sendTime.map fun t => (r.msg, t)
  match (pySorted (restOfDelay delayFn now next) sent).getLast? with
  | none => 0
  | some waitingAfter =>
      let stillWaiting := restOfDelay delayFn now next waitingAfter
      if stillWaiting ≠ 0 then stillWaiting else 0

/-- The pacing wait as the specification words it: the maximum, over all
requests in the history that have a recorded send time, of
`delay(candidate, next)` minus the time elapsed since `candidate` was
sent, clipped below at zero (and zero when there is no candidate). -/
def specPacingWait (delayFn : DelayFn) (now : Time) (next : Message)
    (allRequests : List HistRequest) : Time :=
  let remainders := allRequests.filterMap fun r =>
    r.sendTime.map fun t => delayFn r.msg next - elapsedSince now t
  remainders.foldl max 0

/-- A concrete pacing function in the style of the Denon driver:
2 seconds between a power command and a volume command. -/
def denonStyleDelay : DelayFn := fun prev next =>
  if prev.command = "PW" && next.command = "MV" then 2 else 0

/-- A concrete request history: a power-on sent at t = 8.5 s and a
still-unsent input-select request. -/
def historySample : List HistRequest :=
  [⟨⟨"PW", some "ON"⟩, some (17/2)⟩, ⟨⟨"SI", some "DVD"⟩, none⟩]

/-- The volume command about to be sent in the sample. -/
def nextSample : Message := ⟨"MV", some "50"⟩

/-! ## Per-device queue: `TaskQueue` (lib.py lines 493-547) -/

/-- Embeds `TaskQueue.__init__` (lib.py lines 501-505): the in-flight slot,
the FIFO of queued requests, and the bounded `allRequests` history.
Requests are identified by numeric ids. -/
structure TaskQueue where
  running : Option Nat
  queued : List Nat
  allRequests : List Nat
deriving DecidableEq, Repr

def TaskQueue.init : TaskQueue := ⟨none, [], []⟩

/-- Embeds `TaskQueue.run` (lib.py lines 526-538): when no request is running
and the FIFO is non-empty, pop the head, mark it running, and initiate
its send.  The second component observes which request's send was
initiated in this step (`none` when nothing started). -/
def TaskQueue.runStep (q : TaskQueue) : TaskQueue × Option Nat :=
  match q.running, q.queued with
  | none, r :: rest => ({ q with running := some r, queued := rest }, some r)
  | _, _ => (q, none)

/-- Embeds `TaskQueue.push` (lib.py lines 507-517): append the request to the
FIFO, trim `allRequests` to its last 20 entries and append the new
request (`self.allRequests = self.allRequests[-20:]` then `append`),
then call `run`. -/
def TaskQueue.pushStep (q : TaskQueue) (r : Nat) : TaskQueue × Option Nat :=
  TaskQueue.runStep
    { q with queued := q.queued ++ [r],
             allRequests :=
               q.allRequests.drop (q.allRequests.length - 20) ++ [r] }

/-- Completion of the running request: `TaskQueue.gotAnswer` (lib.py
lines 540-547) clears `running` and calls `run` again; the `sent`
callback inside `run` for fire-and-forget requests (lines 529-532)
does the same.  The code reaches `gotAnswer` only under the guard
`self.tasks.running` in `defaultInputHandler` (line 614); with no
running request the step is a no-op. -/
def TaskQueue.completeStep (q : TaskQueue) : TaskQueue × Option Nat :=
  match q.running with
  | some _ => TaskQueue.runStep { q with running := none }
  | none => (q, none)

/-- Embeds `TaskQueue.failed` (lib.py lines 519-524): a request errored; clear
the in-flight slot and drop the whole FIFO. -/
def TaskQueue.failedStep (q : TaskQueue) : TaskQueue × Option Nat :=
  ({ q with running := none, queued := [] }, none)

/-- The externally visible events driving one device queue. -/
inductive TQEv where
  | push (r : Nat)
  | complete
  | fail
deriving DecidableEq, Repr

/-- A device queue together with ghost history: every request ever
pushed and every request whose send was initiated, in order. -/
structure TQTrace where
  q : TaskQueue
  pushedH : List Nat
  startedH : List Nat
deriving DecidableEq, Repr

def TQTrace.init : TQTrace := ⟨TaskQueue.init, [], []⟩

def tqStep (t : TQTrace) (e : TQEv) : TQTrace :=
  match e with
  | .push r =>
      let s := t.q.pushStep r
      ⟨s.1, t.pushedH ++ [r], t.startedH ++ s.2.toList⟩
  | .complete =>
      let s := t.q.completeStep
      ⟨s.1, t.pushedH, t.startedH ++ s.2.toList⟩
  | .fail =>
      let s := t.q.failedStep
      ⟨s.1, t.pushedH, t.startedH ++ s.2.toList⟩

def tqExec (evs : List TQEv) : TQTrace := evs.foldl tqStep TQTrace.init

/-! ## Global action dispatcher: the class-level state of `Trigger`
(lib.py lines 218-316), also mutated by `Request.send` (lines 449-477) -/

/-- A registered trigger: its identity (distinct registered `Trigger`
instances get distinct ids, standing in for Python object identity
`id(self)`, line 266) and its `mayRepeat` flag (line 246; set to true
by `Hal.addRepeatableTrigger`, lines 368-374). -/
structure Trig where
  tid : Nat
  mayRepeat : Bool
deriving DecidableEq, Repr

/-- A trigger occurrence: the trigger, the timestamp `event.when` of
the event that fired it, and a bookkeeping id unique per enqueue.
(The Python code re-enqueues the same `Trigger` object and overwrites
its `event` attribute; the model records the event present at enqueue
time.) -/
structure Occ where
  oid : Nat
  trig : Trig
  when : Time
deriving DecidableEq, Repr

/-- The dispatcher: `Trigger.running`, `Trigger.queued` and
`Trigger.previousExecuted` (lib.py lines 228-230), plus ghost
bookkeeping: `inFlight` lists the occurrences whose action has been
started (`trgr.action(...)` called, line 288) and whose completion
Deferred has not yet fired; `nextOid` numbers enqueues. -/
structure Dispatcher where
  running : Option Occ
  queued : List Occ
  previousExecuted : Option Occ
  inFlight : List Occ
  nextOid : Nat
deriving DecidableEq, Repr

def Dispatcher.init : Dispatcher := ⟨none, [], none, [], 0⟩

/-- Embeds `Trigger.run` (lib.py lines 278-290): if no action is running and
the queue is non-empty, pop the head, mark it running and start its
action (ghost: it joins `inFlight`). -/
def Dispatcher.runStep (d : Dispatcher) : Dispatcher :=
  match d.running with
  | some _ => d
  | none =>
      match d.queued with
      | [] => d
      | o :: rest =>
          { d with running := some o, queued := rest,
                   inFlight := d.inFlight ++ [o] }

/-- The debounce guard at the top of `Trigger.execute` (lib.py lines
266-269): skip when the trigger may not repeat, is the most recently
executed one, and the new event lies within 0.5 s of the previously
executed occurrence's event. -/
def Dispatcher.skips (d : Dispatcher) (t : Trig) (evWhen : Time) : Bool :=
  !t.mayRepeat &&
    match d.previousExecuted with
    | some p => p.trig == t && decide (evWhen - p.when < 1/2)
    | none => false

/-- Embeds `Trigger.execute` (lib.py lines 264-276): unless debounced, record
the triggering event on the trigger, append the occurrence to the
FIFO, remember it as `previousExecuted`, and call `run`. -/
def Dispatcher.executeStep (d : Dispatcher) (t : Trig) (evWhen : Time) :
    Dispatcher :=
  if d.skips t evWhen then d
  else
    let o : Occ := ⟨d.nextOid, t, evWhen⟩
    Dispatcher.runStep
      { d with queued := d.queued ++ [o], previousExecuted := some o,
               nextOid := d.nextOid + 1 }

/-- Embeds `Trigger.executed` (lib.py lines 292-296): occurrence `o`'s action
Deferred fired successfully; clear `running` and call `run`.  (Guarded
on `o` actually being in flight; the clear itself is unconditional in
the code.) -/
def Dispatcher.executedStep (d : Dispatcher) (o : Occ) : Dispatcher :=
  if o ∈ d.inFlight then
    Dispatcher.runStep { d with running := none, inFlight := d.inFlight.erase o }
  else d

/-- Embeds `Trigger.notExecuted` (lib.py lines 298-303): occurrence `o`'s
action Deferred failed; clear `running`, discard the whole FIFO, and
call `run`. -/
def Dispatcher.notExecutedStep (d : Dispatcher) (o : Occ) : Dispatcher :=
  if o ∈ d.inFlight then
    Dispatcher.runStep
      { d with running := none, queued := [], inFlight := d.inFlight.erase o }
  else d

/-- The `sent` callback inside `Request.send` (lib.py lines 449-453):
as soon as a request's write went out, `Trigger.running = None` — the
dispatcher's running slot is cleared although the running action's
completion signal has not fired (`_donotwait`, lines 473-477, does the
same).  No `run` call. -/
def Dispatcher.requestSentStep (d : Dispatcher) : Dispatcher :=
  { d with running := none }

/-- The dispatcher part of the `timedout` closure inside `Request.send`
(lib.py lines 454-462) for an unanswered request:
`Trigger.running = None; Trigger.queued = []`.  No `run` call. -/
def Dispatcher.timeoutStep (d : Dispatcher) : Dispatcher :=
  { d with running := none, queued := [] }

/-- Embeds `Trigger.cancelLongRun` (lib.py lines 305-316), one tick taken at
instant `now`: if an occurrence occupies `running` and more than 10
seconds elapsed since its triggering event, force-clear `running`.
No `run` call; the tick then re-arms itself for one second later. -/
def Dispatcher.cancelLongRunStep (d : Dispatcher) (now : Time) : Dispatcher :=
  match d.running with
  | some o =>
      if 10 < elapsedSince now o.when then { d with running := none } else d
  | none => d

/-- Events driving the dispatcher. -/
inductive DispEv where
  | fire (t : Trig) (evWhen : Time)
  | done (o : Occ)
  | failed (o : Occ)
  | requestSent
  | timeout
  | tick (now : Time)
deriving DecidableEq, Repr

def dispStep (d : Dispatcher) : DispEv → Dispatcher
  | .fire t evWhen => d.executeStep t evWhen
  | .done o => d.executedStep o
  | .failed o => d.notExecutedStep o
  | .requestSent => d.requestSentStep
  | .timeout => d.timeoutStep
  | .tick now => d.cancelLongRunStep now

def dispExec (evs : List DispEv) (d : Dispatcher) : Dispatcher :=
  evs.foldl dispStep d

/-- Occurrence `q` is absent from the dispatcher's pending structures
and its id is already spent.  This is the invariant that shows a
discarded occurrence can never reach `inFlight` later. -/
def avoidsOcc (q : Occ) (d : Dispatcher) : Prop :=
  q ∉ d.queued ∧ q ∉ d.inFlight ∧ q.oid < d.nextOid

/-! ## Request timeout behaviour (lib.py lines 390-477) -/

/-- The slice of a `Request`'s state that the timeout path touches.
`Request.__init__` (lib.py lines 392-403) stores protocol, message,
`maxWaitSeconds`, `createTime`, `sendTime` and `answerTime` — there is
no retry counter among its attributes.  `answered` stands for
`answerTime is not None` (set at construction when
`maxWaitSeconds == -1`, line 401); `sendCount` counts executions of the
`send1` write (lines 443-448). -/
structure ReqLife where
  maxWaitSeconds : Time
  answered : Bool
  failed : Bool
  sendCount : Nat
deriving DecidableEq, Repr

/-- A fresh request (lib.py lines 392-403): `answerTime` starts out set
exactly for the fire-and-forget sentinel `maxWaitSeconds == -1`. -/
def ReqLife.mk0 (maxWait : Time) : ReqLife :=
  ⟨maxWait, if maxWait = -1 then true else false, false, 0⟩

/-- The `send1` callback (lib.py lines 443-448): one write of the
encoded message per invocation. -/
def ReqLife.sendOnce (r : ReqLife) : ReqLife :=
  { r with sendCount := r.sendCount + 1 }

/-- The request-side effect of the `timedout` closure (lib.py lines
454-462): an answered request is left alone (`if self.answerTime:
return`); an unanswered one has its Deferred cancelled and errbacked —
it fails.  Nothing is written again and no retry counter exists. -/
def ReqLife.timedout (r : ReqLife) : ReqLife :=
  if r.answered then r else { r with failed := true }

/-- The complete life of a request with `maxWaitSeconds` > 0 that never
receives an answer: constructed, written once, then the single
scheduled timeout check fires. -/
def unansweredRun (maxWait : Time) : ReqLife :=
  ((ReqLife.mk0 maxWait).sendOnce).timedout

/-- The `timedout` closure (lib.py lines 454-462) in full: its effect
on the request together with its effect on the global dispatcher
(`Trigger.running = None; Trigger.queued = []`). -/
def timedoutHandler (r : ReqLife) (d : Dispatcher) : ReqLife × Dispatcher :=
  if r.answered then (r, d)
  else (r.timedout, { d with running := none, queued := [] })

/-! ## Event history of `Hal.eventReceived` (lib.py lines 331-360) -/

/-- The event-history effect of `Hal.eventReceived` (lib.py line 348):
`self.events.append(event)`.  No statement of `eventReceived` (lines
345-360) — nor any other method of `Hal` — removes from or truncates
`self.events`. -/
def Hal.receiveEvent (events : List Message) (e : Message) : List Message :=
  events ++ [e]

/-- The history after a whole stream of incoming events, starting from
`self.events = []` (lib.py line 335). -/
def Hal.receiveAll (es : List Message) : List Message :=
  es.foldl Hal.receiveEvent []

/-! ## `Serializer.ask` / `_send` / `send` (lib.py lines 650-713) -/

/-- Embeds `Serializer.ask` (lib.py lines 650-655), which builds
`self.message(msg.humanCommand())`: the value is stripped from the
message, giving the question form of its command, which is then
pushed. -/
def Serializer.question (msg : Message) : Message := ⟨msg.command, none⟩

/-- How `Serializer._send` finished: it either pushed the new command,
or the device already had the desired value and `_send` returned
`succeed(None)` — immediate success with nothing further written. -/
inductive SendOutcome where
  | pushedNew
  | alreadySet
deriving DecidableEq, Repr

/-- The `got` callback inside `Serializer._send` (lib.py lines
697-702): once the answer to the question is in, push the wanted
message exactly when there is no answer (`not result`) or its value
differs from the desired one; otherwise return `succeed(None)`.
First component: messages pushed by this callback. -/
def Serializer.got (msg : Message) (result : Option Message) :
    List Message × SendOutcome :=
  match result with
  | none => ([msg], .pushedNew)
  | some answer =>
      if answer.value ≠ msg.value then ([msg], .pushedNew)
      else ([], .alreadySet)

/-- Embeds `Serializer._send` (lib.py lines 692-703): ask for the current
value (pushing the question form), then run `got` on the answer.  The
list collects every message pushed to the device queue, in order. -/
def Serializer.sendChecked (msg : Message) (result : Option Message) :
    List Message × SendOutcome :=
  (Serializer.question msg :: (Serializer.got msg result).1,
    (Serializer.got msg result).2)

/-- The base class's `poweronCommands` (lib.py line 583). -/
def Serializer.poweronCommands : List String := []

/-- Embeds `Serializer.send` (lib.py lines 705-713): a command listed in
`poweronCommands` first powers the device on and then runs `_send`;
any other command runs `_send` directly.  In the base class the
poweron branch writes nothing (`_poweron`, lines 679-681, returns
`succeed(None)`), so both branches push the same messages. -/
def Serializer.sendStep (msg : Message) (result : Option Message) :
    List Message × SendOutcome :=
  if msg.command ∈ Serializer.poweronCommands then
    Serializer.sendChecked msg result
  else
    Serializer.sendChecked msg result

/-! ## Concrete sample data for witnesses and counterexamples -/

/-- A non-repeatable trigger. -/
def trigA : Trig := ⟨0, false⟩

/-- A second, distinct non-repeatable trigger. -/
def trigB : Trig := ⟨1, false⟩

/-- Trigger A's occurrence at t = 0. -/
def occA : Occ := ⟨0, trigA, 0⟩

/-- Trigger B's occurrence at t = 5. -/
def occB : Occ := ⟨1, trigB, 5⟩

/-- Trigger A fires; its action's request is written (the `sent`
callback clears `Trigger.running`); trigger B fires while A's action is
still pending. -/
def breakingTrace : List DispEv :=
  [DispEv.fire trigA 0, DispEv.requestSent, DispEv.fire trigB 1]

/-- A dispatcher whose running occurrence (`occA`, event at t = 0) is
stuck, with `occB` waiting in the FIFO. -/
def stuckDispatcher : Dispatcher := ⟨some occA, [occB], some occB, [occA], 2⟩


theorem restOfDelay_nonneg (delayFn : DelayFn) (now : Time) (next : Message)
    (old : Message × Time) : 0 ≤ restOfDelay delayFn now next old := by
  unfold restOfDelay
  dsimp only
  split
  · split
    · linarith [le_of_lt (by assumption : (0:Time) < _)]
    · exact le_refl 0
  · exact le_refl 0

theorem le_foldl_max (l : List Time) (a : Time) : a ≤ l.foldl max a := by
  induction l generalizing a with
  | nil => exact le_refl a
  | cons x xs ih => exact le_trans (le_max_left a x) (ih (max a x))

theorem foldl_max_le {l : List Time} {a b : Time} (ha : a ≤ b)
    (h : ∀ x ∈ l, x ≤ b) : l.foldl max a ≤ b := by
  induction l generalizing a with
  | nil => exact ha
  | cons x xs ih =>
      exact ih (max_le ha (h x (List.mem_cons_self x xs)))
        fun y hy => h y (List.mem_cons_of_mem x hy)

theorem mem_le_foldl_max {l : List Time} {x : Time} (hx : x ∈ l) (a : Time) :
    x ≤ l.foldl max a := by
  induction l generalizing a with
  | nil => cases hx
  | cons y ys ih =>
      rcases List.mem_cons.1 hx with h | h
      · subst h
        exact le_trans (le_max_right a x) (le_foldl_max ys (max a x))
      · exact ih h (max a y)

theorem max_absorb_clip {a x : Time} (ha : 0 ≤ a) : max a x = max a (max 0 x) := by
  rw [← max_assoc, max_eq_left ha]

theorem foldl_max_congr {α : Type} {f g : α → Time} :
    ∀ (l : List α), (∀ x ∈ l, max 0 (f x) = max 0 (g x)) →
      ∀ a : Time, 0 ≤ a → (l.map f).foldl max a = (l.map g).foldl max a := by
  intro l
  induction l with
  | nil => intro _ a _; rfl
  | cons x xs ih =>
      intro h a ha
      have hx := h x (List.mem_cons_self x xs)
      have hstep : max a (f x) = max a (g x) := by
        rw [max_absorb_clip ha, hx, ← max_absorb_clip ha]
      simp only [List.map_cons, List.foldl_cons, hstep]
      exact ih (fun y hy => h y (List.mem_cons_of_mem x hy)) (max a (g x))
        (le_trans ha (le_max_left a (g x)))

/-- A key-sorted list's last element bounds the keys of all elements. -/
theorem sorted_le_getLast {α : Type} {key : α → Time} :
    ∀ {l : List α}, List.Sorted (fun a b => key a ≤ key b) l →
      ∀ {m}, l.getLast? = some m → ∀ x ∈ l, key x ≤ key m := by
  intro l
  induction l with
  | nil => intro _ m hm; cases hm
  | cons a t ih =>
      intro hs m hm x hx
      rcases List.sorted_cons.1 hs with ⟨ha, ht⟩
      cases t with
      | nil =>
          simp only [List.getLast?_singleton, Option.some.injEq] at hm
          subst hm
          rcases List.mem_singleton.1 hx with rfl
          exact le_refl _
      | cons b t' =>
          rw [List.getLast?_cons_cons] at hm
          have hmem : m ∈ b :: t' := by
            rcases List.mem_getLast?_eq_getLast hm with ⟨hne, rfl⟩
            exact List.getLast_mem hne
          rcases List.mem_cons.1 hx with rfl | hx'
          · exact ha m hmem
          · exact ih ht hm x hx'

/-- Elements of `pySorted key l` are exactly those of `l`. -/
theorem mem_pySorted {α : Type} {key : α → Time} {l : List α} {x : α} :
    x ∈ pySorted key l ↔ x ∈ l := by
  unfold pySorted
  exact List.Perm.mem_iff (List.perm_insertionSort _ l)

theorem pySorted_sorted {α : Type} (key : α → Time) (l : List α) :
    List.Sorted (fun a b => key a ≤ key b) (pySorted key l) := by
  unfold pySorted
  have : IsTotal α fun a b => key a ≤ key b := ⟨fun a b => le_total (key a) (key b)⟩
  have : IsTrans α fun a b => key a ≤ key b :=
    ⟨fun a b c hab hbc => le_trans hab hbc⟩
  exact List.sorted_insertionSort _ l

/-- Pushing a function below `Option.map` through the `filterMap` that
selects requests with a send time. -/
theorem filterMap_sendTime_map {β : Type} (F : Message × Time → β)
    (l : List HistRequest) :
    (l.filterMap fun r => r.sendTime.map fun t => F (r.msg, t)) =
      (l.filterMap fun r => r.sendTime.map fun t => (r.msg, t)).map F := by
  induction l with
  | nil => rfl
  | cons r rs ih =>
      cases h : r.sendTime with
      | none => simp [List.filterMap_cons, h, ih]
      | some t => simp [List.filterMap_cons, h, ih]

theorem mem_sentList {l : List HistRequest} {c : Message × Time}
    (hc : c ∈ l.filterMap fun r => r.sendTime.map fun t => (r.msg, t)) :
    ∃ r ∈ l, r.sendTime = some c.2 ∧ r.msg = c.1 := by
  rcases List.mem_filterMap.1 hc with ⟨r, hr, heq⟩
  cases hst : r.sendTime with
  | none => rw [hst] at heq; cases heq
  | some t =>
      rw [hst] at heq
      simp only [Option.map_some', Option.some.injEq] at heq
      subst heq
      exact ⟨r, hr, hst, rfl⟩

/-- The specification's remainder list is the image of the sent-request
list under the raw (unclipped) remainder function. -/
theorem spec_remainders_eq (delayFn : DelayFn) (now : Time) (next : Message)
    (l : List HistRequest) :
    (l.filterMap fun r => r.sendTime.map fun t =>
        delayFn r.msg next - elapsedSince now t) =
      (l.filterMap fun r => r.sendTime.map fun t => (r.msg, t)).map
        (fun c => delayFn c.1 next - elapsedSince now c.2) := by
  induction l with
  | nil => rfl
  | cons r rs ih =>
      cases h : r.sendTime with
      | none => simp [List.filterMap_cons, h, ih]
      | some t => simp [List.filterMap_cons, h, ih]

/-- Per-candidate agreement of the code's clipped remainder
(`restOfDelay`) with the specification's raw remainder, under a
zero-or-positive `max` accumulator: for a candidate sent in the past
they clip to the same value. -/
theorem restOfDelay_clip_eq (delayFn : DelayFn) (now : Time) (next : Message)
    (c : Message × Time) (hc : c.2 ≤ now) :
    max 0 (delayFn c.1 next - elapsedSince now c.2) =
      max 0 (restOfDelay delayFn now next c) := by
  unfold restOfDelay elapsedSince
  dsimp only
  by_cases hd : delayFn c.1 next = 0
  · have he : (0:Time) ≤ now - c.2 := by linarith
    simp only [hd, if_neg (by simp : ¬(0:Time) ≠ 0)]
    rw [max_eq_left (by linarith), max_eq_left (le_refl 0)]
  · rw [if_pos hd]
    by_cases hw : 0 < delayFn c.1 next - (now - c.2)
    · rw [if_pos hw]
    · rw [if_neg hw]
      rw [max_eq_left (le_of_not_lt hw), max_eq_left (le_refl 0)]

/-- C1: for a request about to be sent on a connected transport, the
pacing wait computed by `Request.__delaySending` equals the maximum,
over all requests in the device's `allRequests` history that have a
recorded send time, of `delay(candidate, next)` minus the time elapsed
since `candidate` was sent, clipped below at zero (zero when no
candidate yields a positive remainder, so the request goes out
immediately).  The only hypothesis is that recorded send times lie in
the past. -/
theorem pacing_wait_correct (delayFn : DelayFn) (now : Time) (next : Message)
    (allRequests : List HistRequest)
    (hpast : ∀ r ∈ allRequests, ∀ t, r.sendTime = some t → t ≤ now) :
    delaySendingWait delayFn now next allRequests =
      specPacingWait delayFn now next allRequests := by
  show (match (pySorted (restOfDelay delayFn now next)
      (allRequests.filterMap fun r => r.sendTime.map fun t => (r.msg, t))).getLast? with
    | none => (0:Time)
    | some waitingAfter =>
        let stillWaiting := restOfDelay delayFn now next waitingAfter
        if stillWaiting ≠ 0 then stillWaiting else 0) =
    (allRequests.filterMap fun r =>
      r.sendTime.map fun t => delayFn r.msg next - elapsedSince now t).foldl max 0
  rw [spec_remainders_eq]
  cases hlast : (pySorted (restOfDelay delayFn now next)
      (allRequests.filterMap fun r => r.sendTime.map fun t => (r.msg, t))).getLast? with
  | none =>
      have hnil : pySorted (restOfDelay delayFn now next)
          (allRequests.filterMap fun r => r.sendTime.map fun t => (r.msg, t)) = [] :=
        List.getLast?_eq_none_iff.1 hlast
      have hsentnil : (allRequests.filterMap fun r =>
          r.sendTime.map fun t => (r.msg, t)) = [] := by
        have hperm := List.perm_insertionSort
          (fun a b => restOfDelay delayFn now next a ≤ restOfDelay delayFn now next b)
          (allRequests.filterMap fun r => r.sendTime.map fun t => (r.msg, t))
        rw [show pySorted (restOfDelay delayFn now next)
            (allRequests.filterMap fun r => r.sendTime.map fun t => (r.msg, t)) =
            List.insertionSort _ _ from rfl] at hnil
        rw [hnil] at hperm
        exact hperm.symm.eq_nil
      rw [hsentnil]
      rfl
  | some m =>
      have hmemSorted : m ∈ pySorted (restOfDelay delayFn now next)
          (allRequests.filterMap fun r => r.sendTime.map fun t => (r.msg, t)) := by
        rcases List.mem_getLast?_eq_getLast hlast with ⟨hne, rfl⟩
        exact List.getLast_mem hne
      have hmem : m ∈ allRequests.filterMap fun r =>
          r.sendTime.map fun t => (r.msg, t) := mem_pySorted.1 hmemSorted
      have hbound : ∀ x ∈ allRequests.filterMap fun r =>
          r.sendTime.map fun t => (r.msg, t),
          restOfDelay delayFn now next x ≤ restOfDelay delayFn now next m :=
        fun x hx => sorted_le_getLast (pySorted_sorted _ _) hlast x (mem_pySorted.2 hx)
      have hLHS : (match (some m : Option (Message × Time)) with
          | none => (0:Time)
          | some waitingAfter =>
              let stillWaiting := restOfDelay delayFn now next waitingAfter
              if stillWaiting ≠ 0 then stillWaiting else 0) =
          restOfDelay delayFn now next m := by
        dsimp only
        by_cases h0 : restOfDelay delayFn now next m = 0
        · rw [if_neg (by simp [h0]), h0]
        · rw [if_pos h0]
      rw [hLHS]
      have hcongr : ((allRequests.filterMap fun r =>
            r.sendTime.map fun t => (r.msg, t)).map
              (fun c => delayFn c.1 next - elapsedSince now c.2)).foldl max 0 =
          ((allRequests.filterMap fun r =>
            r.sendTime.map fun t => (r.msg, t)).map
              (restOfDelay delayFn now next)).foldl max 0 := by
        apply foldl_max_congr
        · intro c hc
          rcases mem_sentList hc with ⟨r, hr, hst, _⟩
          exact restOfDelay_clip_eq delayFn now next c
            (hpast r hr c.2 hst)
        · exact le_refl 0
      rw [hcongr]
      apply le_antisymm
      · exact mem_le_foldl_max (List.mem_map_of_mem _ hmem) 0
      · apply foldl_max_le (restOfDelay_nonneg delayFn now next m)
        intro x hx
        rcases List.mem_map.1 hx with ⟨c, hc, rfl⟩
        exact hbound c hc

theorem pacing_wait_correct_witness :
    (∀ r ∈ historySample, ∀ t, r.sendTime = some t → t ≤ 10) ∧
      delaySendingWait denonStyleDelay 10 nextSample historySample =
        specPacingWait denonStyleDelay 10 nextSample historySample := by
  have h : ∀ r ∈ historySample, ∀ t, r.sendTime = some t → t ≤ 10 := by
    intro r hr t ht
    rcases List.mem_cons.1 hr with rfl | hr
    · have : some (17/2 : Time) = some t := ht
      have ht' : (17/2 : Time) = t := by injection this
      rw [← ht']
      norm_num
    · rcases List.mem_cons.1 hr with rfl | hr
      · exact absurd ht (by simp)
      · cases hr
  exact ⟨h, pacing_wait_correct denonStyleDelay 10 nextSample historySample h⟩

/-- The `run` step redistributes the FIFO: the started request (if any) followed
by the remaining FIFO is exactly the FIFO before the step. -/
theorem runStep_queued (q : TaskQueue) :
    q.runStep.2.toList ++ q.runStep.1.queued = q.queued := by
  obtain ⟨run, qd, all⟩ := q
  cases run <;> cases qd <;> rfl

theorem tq_invariant (t : TQTrace) (e : TQEv)
    (h : (t.startedH ++ t.q.queued).Sublist t.pushedH) :
    ((tqStep t e).startedH ++ (tqStep t e).q.queued).Sublist (tqStep t e).pushedH := by
  cases e with
  | push r =>
      show ((t.startedH ++ (t.q.pushStep r).2.toList) ++ (t.q.pushStep r).1.queued).Sublist
        (t.pushedH ++ [r])
      rw [List.append_assoc, TaskQueue.pushStep, runStep_queued]
      show (t.startedH ++ (t.q.queued ++ [r])).Sublist (t.pushedH ++ [r])
      rw [← List.append_assoc]
      exact h.append (List.Sublist.refl [r])
  | complete =>
      show ((t.startedH ++ t.q.completeStep.2.toList) ++ t.q.completeStep.1.queued).Sublist
        t.pushedH
      rw [List.append_assoc]
      unfold TaskQueue.completeStep
      cases hr : t.q.running with
      | some r =>
          rw [runStep_queued]
          exact h
      | none =>
          exact h
  | fail =>
      show ((t.startedH ++ t.q.failedStep.2.toList) ++ t.q.failedStep.1.queued).Sublist
        t.pushedH
      unfold TaskQueue.failedStep
      simp only [Option.toList_none, List.append_nil]
      exact (List.sublist_append_left t.startedH t.q.queued).trans h

theorem tq_inv_all (evs : List TQEv) (t : TQTrace)
    (h : (t.startedH ++ t.q.queued).Sublist t.pushedH) :
    ((evs.foldl tqStep t).startedH ++ (evs.foldl tqStep t).q.queued).Sublist
      (evs.foldl tqStep t).pushedH := by
  induction evs generalizing t with
  | nil => exact h
  | cons e es ih => exact ih _ (tq_invariant t e h)

/-- C2: for every sequence of events against one device queue, the
requests whose sends were initiated form (in order) a sublist of the
requests pushed, i.e. requests start strictly in push order; moreover
`run` initiates a request only when nothing is running — it then pops
exactly the head of `queued` — and while a request is in flight `run`
changes nothing, so at most one request is ever in flight. -/
theorem taskQueue_fifo_single_flight (evs : List TQEv) :
    (tqExec evs).startedH.Sublist (tqExec evs).pushedH ∧
    (∀ q : TaskQueue, ∀ r, q.runStep.2 = some r →
        q.running = none ∧ q.queued.head? = some r ∧
          q.runStep.1.running = some r) ∧
    (∀ q : TaskQueue, q.running.isSome → q.runStep = (q, none)) := by
  refine ⟨?_, ?_, ?_⟩
  · have h := tq_inv_all evs TQTrace.init (by simp [TQTrace.init, TaskQueue.init])
    exact (List.sublist_append_left (tqExec evs).startedH (tqExec evs).q.queued).trans h
  · intro q r hq
    obtain ⟨run, qd, all⟩ := q
    cases run with
    | some x => cases qd <;> cases hq
    | none =>
        cases qd with
        | nil => cases hq
        | cons a as =>
            have : a = r := by
              have := hq
              simp [TaskQueue.runStep] at this
              exact this
            subst this
            exact ⟨rfl, rfl, rfl⟩
  · intro q hq
    obtain ⟨run, qd, all⟩ := q
    cases run with
    | some x => cases qd <;> rfl
    | none => cases hq

/-- The `run` step leaves `previousExecuted` and the enqueue counter
unchanged. -/
theorem dispatcher_runStep_frame (d : Dispatcher) :
    d.runStep.previousExecuted = d.previousExecuted ∧
    d.runStep.nextOid = d.nextOid := by
  obtain ⟨run, qd, prev, inf, nid⟩ := d
  cases run with
  | some o => exact ⟨rfl, rfl⟩
  | none => cases qd <;> exact ⟨rfl, rfl⟩

/-- C3 counterexample: the dispatcher does not run at most one action
at a time.  On `breakingTrace`, trigger A's action starts, its request
is written — the `sent` callback of `Request.send` clears
`Trigger.running` although A's completion signal has not fired — and
then trigger B's action starts too: two occurrences' actions in flight
at once. -/
theorem dispatcher_not_single_flight :
    ¬ ∀ evs : List DispEv,
        ((dispExec evs Dispatcher.init).inFlight).length ≤ 1 := by
  intro h
  have h2 := h breakingTrace
  have h3 : ((dispExec breakingTrace Dispatcher.init).inFlight).length = 2 := by
    norm_num [breakingTrace, dispExec, dispStep, Dispatcher.init,
      Dispatcher.executeStep, Dispatcher.skips, Dispatcher.runStep,
      Dispatcher.requestSentStep, trigA, trigB]
  omega

/-- C3 corrected: the running slot holds at most one occurrence, and a
trigger firing (not debounced) while the slot is occupied is appended
to the FIFO without starting any action in that step; a queued
occurrence's action starts only once the slot has been cleared — which
happens not only when the running action completes or fails but also
when one of its requests is written, on a request timeout, or at a
watchdog tick, so it can start before the previous action's completion
signal fires. -/
theorem dispatcher_busy_fire_queues (d : Dispatcher) (t : Trig)
    (evWhen : Time) (r : Occ) (hrun : d.running = some r)
    (hskip : d.skips t evWhen = false) :
    (d.executeStep t evWhen).running = some r ∧
    (d.executeStep t evWhen).queued = d.queued ++ [⟨d.nextOid, t, evWhen⟩] ∧
    (d.executeStep t evWhen).inFlight = d.inFlight := by
  unfold Dispatcher.executeStep
  rw [hskip]
  simp only [Bool.false_eq_true, if_false]
  unfold Dispatcher.runStep
  simp [hrun]

theorem dispatcher_busy_fire_queues_witness :
    stuckDispatcher.running = some occA ∧
    stuckDispatcher.skips trigA 1 = false ∧
    ((stuckDispatcher.executeStep trigA 1).running = some occA ∧
     (stuckDispatcher.executeStep trigA 1).queued =
        stuckDispatcher.queued ++ [⟨stuckDispatcher.nextOid, trigA, 1⟩] ∧
     (stuckDispatcher.executeStep trigA 1).inFlight = stuckDispatcher.inFlight) := by
  have h1 : stuckDispatcher.running = some occA := rfl
  have h2 : stuckDispatcher.skips trigA 1 = false := by
    norm_num [Dispatcher.skips, stuckDispatcher, trigA, trigB, occB]
  exact ⟨h1, h2, dispatcher_busy_fire_queues stuckDispatcher trigA 1 occA h1 h2⟩

/-- A debounced `execute` changes nothing: it returns before touching
any dispatcher state. -/
theorem executeStep_of_skips (d : Dispatcher) (t : Trig) (w : Time)
    (h : d.skips t w = true) : d.executeStep t w = d := by
  unfold Dispatcher.executeStep
  rw [h]
  simp

/-- A non-debounced `execute` spends exactly one occurrence id. -/
theorem executeStep_nextOid_of_not_skips (d : Dispatcher) (t : Trig) (w : Time)
    (h : d.skips t w = false) : (d.executeStep t w).nextOid = d.nextOid + 1 := by
  unfold Dispatcher.executeStep
  rw [h]
  simp only [Bool.false_eq_true, if_false]
  exact (dispatcher_runStep_frame _).2.trans rfl

/-- A non-debounced `execute` records its occurrence as
`previousExecuted`. -/
theorem executeStep_prev_of_not_skips (d : Dispatcher) (t : Trig) (w : Time)
    (h : d.skips t w = false) :
    (d.executeStep t w).previousExecuted = some ⟨d.nextOid, t, w⟩ := by
  unfold Dispatcher.executeStep
  rw [h]
  simp only [Bool.false_eq_true, if_false]
  exact (dispatcher_runStep_frame _).1.trans rfl

/-- After a trigger just executed, firing the same trigger within the
0.5 s window debounces it exactly when it may not repeat. -/
theorem skips_after_execute (d : Dispatcher) (t : Trig) (w1 w2 : Time)
    (hfirst : d.skips t w1 = false) (hwin : w2 - w1 < 1/2) :
    (d.executeStep t w1).skips t w2 = !t.mayRepeat := by
  unfold Dispatcher.skips
  rw [executeStep_prev_of_not_skips d t w1 hfirst]
  simp only [beq_self_eq_true, Bool.true_and]
  rw [decide_eq_true hwin]
  simp

/-- C5: firing the most recently executed trigger again within 0.5 s
of its previous occurrence's event enqueues its action exactly once
when `mayRepeat` is false (the second fire is a no-op), and twice when
`mayRepeat` is true (the enqueue counter advances by two). -/
theorem trigger_debounce (d : Dispatcher) (t : Trig) (w1 w2 : Time)
    (hfirst : d.skips t w1 = false) (hwin : w2 - w1 < 1/2) :
    (t.mayRepeat = false →
      (d.executeStep t w1).executeStep t w2 = d.executeStep t w1 ∧
      (d.executeStep t w1).nextOid = d.nextOid + 1) ∧
    (t.mayRepeat = true →
      ((d.executeStep t w1).executeStep t w2).nextOid = d.nextOid + 2) := by
  constructor
  · intro hmr
    refine ⟨executeStep_of_skips _ _ _ ?_,
      executeStep_nextOid_of_not_skips d t w1 hfirst⟩
    rw [skips_after_execute d t w1 w2 hfirst hwin, hmr]
    rfl
  · intro hmr
    have hsk : (d.executeStep t w1).skips t w2 = false := by
      rw [skips_after_execute d t w1 w2 hfirst hwin, hmr]
      rfl
    rw [executeStep_nextOid_of_not_skips _ _ _ hsk,
      executeStep_nextOid_of_not_skips d t w1 hfirst]

theorem trigger_debounce_witness :
    Dispatcher.init.skips trigA 0 = false ∧ ((1/4 : Time) - 0 < 1/2) ∧
    ((Dispatcher.init.executeStep trigA 0).executeStep trigA (1/4) =
        Dispatcher.init.executeStep trigA 0 ∧
      (Dispatcher.init.executeStep trigA 0).nextOid =
        Dispatcher.init.nextOid + 1) := by
  have h1 : Dispatcher.init.skips trigA 0 = false := by
    norm_num [Dispatcher.skips, Dispatcher.init, trigA]
  have h2 : (1/4 : Time) - 0 < 1/2 := by norm_num
  exact ⟨h1, h2, (trigger_debounce Dispatcher.init trigA 0 (1/4) h1 h2).1 rfl⟩

/-- C6 counterexample: `cancelLongRun` does not start the next queued
occurrence.  At a tick 11 s after the stuck occurrence's event the
running slot is force-cleared, but the queued occurrence `occB` stays
queued: it is not running and its action is not started (not in
flight). -/
theorem watchdog_tick_starts_nothing :
    (stuckDispatcher.cancelLongRunStep 11).running = none ∧
    (stuckDispatcher.cancelLongRunStep 11).queued = [occB] ∧
    occB ∉ (stuckDispatcher.cancelLongRunStep 11).inFlight := by
  have hstep : stuckDispatcher.cancelLongRunStep 11 =
      { stuckDispatcher with running := none } := by
    unfold Dispatcher.cancelLongRunStep
    norm_num [stuckDispatcher, elapsedSince, occA]
  rw [hstep]
  refine ⟨rfl, rfl, ?_⟩
  norm_num [stuckDispatcher, occA, occB, trigA, trigB]

/-- C6 corrected: once more than 10 seconds have elapsed since the
running occurrence's triggering event, the watchdog tick force-clears
the running slot and changes nothing else — the FIFO keeps its queued
occurrences.  The head of the FIFO becomes the running occurrence only
at the next invocation of `Trigger.run` (a later execute or action
completion), not at the tick itself. -/
theorem watchdog_clears_after_ceiling (d : Dispatcher) (o : Occ) (now : Time)
    (hrun : d.running = some o) (hel : 10 < elapsedSince now o.when) :
    d.cancelLongRunStep now = { d with running := none } ∧
    ((d.cancelLongRunStep now).runStep).running = d.queued.head? := by
  have h1 : d.cancelLongRunStep now = { d with running := none } := by
    unfold Dispatcher.cancelLongRunStep
    rw [hrun]
    simp only [if_pos hel]
  refine ⟨h1, ?_⟩
  rw [h1]
  unfold Dispatcher.runStep
  cases hq : d.queued with
  | nil => simp [hq]
  | cons a as => simp [hq]

theorem watchdog_clears_after_ceiling_witness :
    stuckDispatcher.running = some occA ∧
    (10 < elapsedSince 11 occA.when) ∧
    (stuckDispatcher.cancelLongRunStep 11 =
        { stuckDispatcher with running := none } ∧
      ((stuckDispatcher.cancelLongRunStep 11).runStep).running =
        stuckDispatcher.queued.head?) := by
  have h1 : stuckDispatcher.running = some occA := rfl
  have h2 : 10 < elapsedSince 11 occA.when := by
    norm_num [elapsedSince, occA]
  exact ⟨h1, h2, watchdog_clears_after_ceiling stuckDispatcher occA 11 h1 h2⟩

/-- The `run` step cannot resurrect an occurrence that is absent from
the FIFO and already-spent: `avoidsOcc` is preserved. -/
theorem avoidsOcc_runStep (q : Occ) (d : Dispatcher) (h : avoidsOcc q d) :
    avoidsOcc q d.runStep := by
  obtain ⟨hq, hf, ho⟩ := h
  obtain ⟨run, qd, prev, inf, nid⟩ := d
  cases run with
  | some o => exact ⟨hq, hf, ho⟩
  | none =>
      cases qd with
      | nil => exact ⟨hq, hf, ho⟩
      | cons a as =>
          refine ⟨fun hmem => hq (List.mem_cons_of_mem a hmem), ?_, ho⟩
          intro hmem
          rcases List.mem_append.1 hmem with h1 | h1
          · exact hf h1
          · rcases List.mem_singleton.1 h1 with rfl
            exact hq (List.mem_cons_self _ _)

/-- No dispatcher event can bring a discarded occurrence back:
`avoidsOcc` is preserved by every step. -/
theorem avoidsOcc_step (q : Occ) (d : Dispatcher) (e : DispEv)
    (h : avoidsOcc q d) : avoidsOcc q (dispStep d e) := by
  obtain ⟨hq, hf, ho⟩ := h
  cases e with
  | fire t w =>
      show avoidsOcc q (d.executeStep t w)
      unfold Dispatcher.executeStep
      cases hs : d.skips t w with
      | true => simpa using ⟨hq, hf, ho⟩
      | false =>
          simp only [Bool.false_eq_true, if_false]
          apply avoidsOcc_runStep
          refine ⟨?_, hf, Nat.lt_succ_of_lt ho⟩
          intro hmem
          rcases List.mem_append.1 hmem with h1 | h1
          · exact hq h1
          · rcases List.mem_singleton.1 h1 with rfl
            exact Nat.lt_irrefl _ ho
  | done o =>
      show avoidsOcc q (d.executedStep o)
      unfold Dispatcher.executedStep
      by_cases hmem : o ∈ d.inFlight
      · rw [if_pos hmem]
        exact avoidsOcc_runStep q _
          ⟨hq, fun hx => hf (List.mem_of_mem_erase hx), ho⟩
      · rw [if_neg hmem]
        exact ⟨hq, hf, ho⟩
  | failed o =>
      show avoidsOcc q (d.notExecutedStep o)
      unfold Dispatcher.notExecutedStep
      by_cases hmem : o ∈ d.inFlight
      · rw [if_pos hmem]
        exact avoidsOcc_runStep q _
          ⟨List.not_mem_nil q, fun hx => hf (List.mem_of_mem_erase hx), ho⟩
      · rw [if_neg hmem]
        exact ⟨hq, hf, ho⟩
  | requestSent => exact ⟨hq, hf, ho⟩
  | timeout => exact ⟨List.not_mem_nil q, hf, ho⟩
  | tick now =>
      show avoidsOcc q (d.cancelLongRunStep now)
      unfold Dispatcher.cancelLongRunStep
      cases hr : d.running with
      | some o =>
          show avoidsOcc q (if 10 < elapsedSince now o.when then
            { d with running := none } else d)
          by_cases hel : 10 < elapsedSince now o.when
          · rw [if_pos hel]
            exact ⟨hq, hf, ho⟩
          · rw [if_neg hel]
            exact ⟨hq, hf, ho⟩
      | none => exact ⟨hq, hf, ho⟩

theorem avoidsOcc_exec (q : Occ) (d : Dispatcher) (evs : List DispEv)
    (h : avoidsOcc q d) : avoidsOcc q (dispExec evs d) := by
  induction evs generalizing d with
  | nil => exact h
  | cons e es ih => exact ih _ (avoidsOcc_step q d e h)

/-- C7: when occurrence `o`'s action reports failure, `notExecuted`
clears the running slot and discards the whole FIFO; any occurrence
`q` that was queued at that moment never has its action started
afterwards (it never enters the in-flight set), whatever dispatcher
events follow. -/
theorem action_failure_drains_queue (d : Dispatcher) (o q : Occ)
    (evs : List DispEv) (ho : o ∈ d.inFlight) (hq : q ∈ d.queued)
    (hqf : q ∉ d.inFlight) (hoid : q.oid < d.nextOid) :
    (d.notExecutedStep o).running = none ∧
    (d.notExecutedStep o).queued = [] ∧
    q ∉ (dispExec evs (d.notExecutedStep o)).inFlight := by
  have hstep : d.notExecutedStep o =
      { d with running := none, queued := [],
               inFlight := d.inFlight.erase o } := by
    unfold Dispatcher.notExecutedStep
    rw [if_pos ho]
    rfl
  refine ⟨by rw [hstep], by rw [hstep], ?_⟩
  have hav : avoidsOcc q (d.notExecutedStep o) := by
    rw [hstep]
    exact ⟨List.not_mem_nil q, fun hx => hqf (List.mem_of_mem_erase hx), hoid⟩
  exact (avoidsOcc_exec q _ evs hav).2.1

theorem action_failure_drains_queue_witness :
    occA ∈ stuckDispatcher.inFlight ∧ occB ∈ stuckDispatcher.queued ∧
    occB ∉ stuckDispatcher.inFlight ∧ occB.oid < stuckDispatcher.nextOid ∧
    ((stuckDispatcher.notExecutedStep occA).running = none ∧
     (stuckDispatcher.notExecutedStep occA).queued = [] ∧
     occB ∉ (dispExec [DispEv.fire trigB 20]
        (stuckDispatcher.notExecutedStep occA)).inFlight) := by
  have h1 : occA ∈ stuckDispatcher.inFlight := by
    norm_num [stuckDispatcher]
  have h2 : occB ∈ stuckDispatcher.queued := by
    norm_num [stuckDispatcher]
  have h3 : occB ∉ stuckDispatcher.inFlight := by
    norm_num [stuckDispatcher, occA, occB, trigA, trigB]
  have h4 : occB.oid < stuckDispatcher.nextOid := by
    norm_num [stuckDispatcher, occB]
  exact ⟨h1, h2, h3, h4,
    action_failure_drains_queue stuckDispatcher occA occB
      [DispEv.fire trigB 20] h1 h2 h3 h4⟩

/-- C4 counterexample: a request with `maxWaitSeconds = 5` that never
receives an answer is written exactly once and fails already at its
first timeout — there is no retry counter and no re-send, so it is not
"retried 2 times before failing" (no third, but also no first or
second, send). -/
theorem request_not_retried :
    (unansweredRun 5).sendCount = 1 ∧ (unansweredRun 5).failed = true ∧
    (unansweredRun 5).sendCount ≠ 3 := by
  have h : unansweredRun 5 = ⟨5, false, true, 1⟩ := by
    norm_num [unansweredRun, ReqLife.mk0, ReqLife.sendOnce, ReqLife.timedout]
  rw [h]
  exact ⟨rfl, rfl, by norm_num⟩

/-- C4 corrected: the timeout check of an unanswered request fails it
immediately, leaving the write count untouched — the request is never
re-sent; for an already answered request the check is a no-op
(`if self.answerTime: return`). -/
theorem request_timeout_fails_without_resend (r : ReqLife) :
    (r.answered = false →
      r.timedout = { r with failed := true } ∧
      r.timedout.sendCount = r.sendCount) ∧
    (r.answered = true → r.timedout = r) := by
  constructor
  · intro h
    unfold ReqLife.timedout
    rw [h]
    simp
  · intro h
    unfold ReqLife.timedout
    rw [h]
    simp

theorem request_timeout_fails_without_resend_witness :
    (⟨5, false, false, 1⟩ : ReqLife).answered = false ∧
    ((⟨5, false, false, 1⟩ : ReqLife).timedout =
        { (⟨5, false, false, 1⟩ : ReqLife) with failed := true } ∧
      (⟨5, false, false, 1⟩ : ReqLife).timedout.sendCount =
        (⟨5, false, false, 1⟩ : ReqLife).sendCount) :=
  ⟨rfl, (request_timeout_fails_without_resend ⟨5, false, false, 1⟩).1 rfl⟩

/-- C8 counterexample: the timeout handler does not leave the global
dispatcher unchanged — for an unanswered request it discards the
dispatcher's queued occurrence (and clears its running slot). -/
theorem timeout_mutates_dispatcher :
    (timedoutHandler ⟨5, false, false, 1⟩ stuckDispatcher).2 ≠
      stuckDispatcher := by
  intro h
  have hq : (timedoutHandler ⟨5, false, false, 1⟩ stuckDispatcher).2.queued = [] := by
    norm_num [timedoutHandler, ReqLife.timedout]
  rw [h] at hq
  have : stuckDispatcher.queued = [occB] := rfl
  rw [this] at hq
  cases hq

/-- C8 corrected: the timeout handler cancels the unanswered request
(errback) and, beyond that request, clears the global dispatcher's
running slot and discards its queued occurrences; the dispatcher's
remaining fields are untouched, and for an already answered request
the handler changes nothing at all. -/
theorem timeout_handler_effect (r : ReqLife) (d : Dispatcher) :
    (r.answered = true → timedoutHandler r d = (r, d)) ∧
    (r.answered = false →
      (timedoutHandler r d).1 = { r with failed := true } ∧
      (timedoutHandler r d).2.running = none ∧
      (timedoutHandler r d).2.queued = [] ∧
      (timedoutHandler r d).2.inFlight = d.inFlight ∧
      (timedoutHandler r d).2.previousExecuted = d.previousExecuted ∧
      (timedoutHandler r d).2.nextOid = d.nextOid) := by
  constructor
  · intro h
    unfold timedoutHandler
    rw [h]
    simp
  · intro h
    unfold timedoutHandler ReqLife.timedout
    rw [h]
    simp

theorem timeout_handler_effect_witness :
    (⟨5, false, false, 1⟩ : ReqLife).answered = false ∧
    ((timedoutHandler ⟨5, false, false, 1⟩ stuckDispatcher).1 =
        { (⟨5, false, false, 1⟩ : ReqLife) with failed := true } ∧
      (timedoutHandler ⟨5, false, false, 1⟩ stuckDispatcher).2.running = none ∧
      (timedoutHandler ⟨5, false, false, 1⟩ stuckDispatcher).2.queued = [] ∧
      (timedoutHandler ⟨5, false, false, 1⟩ stuckDispatcher).2.inFlight =
        stuckDispatcher.inFlight ∧
      (timedoutHandler ⟨5, false, false, 1⟩ stuckDispatcher).2.previousExecuted =
        stuckDispatcher.previousExecuted ∧
      (timedoutHandler ⟨5, false, false, 1⟩ stuckDispatcher).2.nextOid =
        stuckDispatcher.nextOid) :=
  ⟨rfl, (timeout_handler_effect ⟨5, false, false, 1⟩ stuckDispatcher).2 rfl⟩

theorem receiveAll_acc (acc es : List Message) :
    es.foldl Hal.receiveEvent acc = acc ++ es := by
  induction es generalizing acc with
  | nil => simp
  | cons e es ih =>
      simp only [List.foldl_cons, Hal.receiveEvent, ih, List.append_assoc,
        List.singleton_append]

/-- C9 counterexample: no bound `N` caps the length of the history kept
by `Hal.eventReceived`; a stream of `N + 1` events leaves `N + 1`
entries retained. -/
theorem event_history_not_bounded :
    ¬ ∃ N : Nat, ∀ es : List Message, (Hal.receiveAll es).length ≤ N := by
  rintro ⟨N, hN⟩
  have h := hN (List.replicate (N + 1) ⟨"e", none⟩)
  rw [Hal.receiveAll, receiveAll_acc] at h
  simp at h

/-- C9 corrected: `Hal.eventReceived` appends every incoming event and
nothing ever trims `self.events`: after any stream of events the
retained history is exactly the full stream, so its length equals the
total number of events received and grows without bound. -/
theorem event_history_retains_everything (es : List Message) :
    Hal.receiveAll es = es ∧ (Hal.receiveAll es).length = es.length := by
  have h : Hal.receiveAll es = es := by
    rw [Hal.receiveAll, receiveAll_acc]
    simp
  exact ⟨h, by rw [h]⟩

/-- C10: `Serializer.send` first pushes the question form of the
message's command (`ask`); the desired command itself is pushed
exactly when the answer is absent or carries a different value; when
the device already reports the desired value nothing further is
written and the send finishes successfully (`succeed(None)`). -/
theorem serializer_send_checks_current (msg : Message)
    (result : Option Message) :
    (Serializer.sendStep msg result).1.head? = some (Serializer.question msg) ∧
    (result = none →
      Serializer.sendStep msg result =
        ([Serializer.question msg, msg], .pushedNew)) ∧
    (∀ a, result = some a → a.value ≠ msg.value →
      Serializer.sendStep msg result =
        ([Serializer.question msg, msg], .pushedNew)) ∧
    (∀ a, result = some a → a.value = msg.value →
      Serializer.sendStep msg result =
        ([Serializer.question msg], .alreadySet)) := by
  unfold Serializer.sendStep Serializer.sendChecked Serializer.got
    Serializer.poweronCommands
  cases result with
  | none => simp
  | some a =>
      by_cases hv : a.value = msg.value
      · simp [hv]
      · simp [hv]

theorem serializer_send_checks_current_witness :
    Serializer.sendStep ⟨"MV", some "50"⟩ (some ⟨"MV", some "50"⟩) =
      ([Serializer.question ⟨"MV", some "50"⟩], .alreadySet) :=
  (serializer_send_checks_current ⟨"MV", some "50"⟩
    (some ⟨"MV", some "50"⟩)).2.2.2 ⟨"MV", some "50"⟩ rfl rfl

end Halirc
